import Mathlib

/-!
Verification of the character-choreography core of `terminaltexteffects`
(the `expand` and `wipe` effects, `src/terminaltexteffects/effects/effect_expand.py`
and `src/terminaltexteffects/effects/effect_wipe.py`).

The Python source is shallowly embedded below: pure computations become Lean
functions, the frame loops become explicit step functions on state records,
and fallible computations (Python exceptions) return `Except`/`Option`.
External collaborators (the terminal engine, the gradient library) are either
taken as parameters or, where the spec must stand in for code that is not part
of the two source files, modelled from the spec and marked as such.
-/

/-- A terminal coordinate, as in `terminaltexteffects.utils.geometry.Coord`:
a (column, row) pair read through `character.input_coord`. -/
structure Coord where
  column : ℕ
  row : ℕ
deriving DecidableEq, Repr

/-- An `EffectCharacter` as the two effects consume it: an identity, the input
symbol, and the immutable input coordinate.  The mutable animation internals
live in the external engine and are modelled by the `alive` signal that the
run loops receive as a parameter. -/
structure EffectCharacter where
  charId : ℕ
  input_symbol : String
  input_coord : Coord
deriving DecidableEq, Repr

/-- A color as the effects handle it: an RGB hex string such as "8A008A". -/
abbrev Color := String

/-- The fractional position `character.input_coord.row / self.terminal.output_area.top`
computed by both `ExpandEffect.prepare_data` (effect_expand.py line 83) and
`WipeEffect.prepare_data` (effect_wipe.py line 90).  The Python code performs a
bare division: when the canvas top extent is `0` it raises `ZeroDivisionError`,
which the embedding renders as `none`. -/
def characterFraction (row top : ℕ) : Option ℚ :=
  if top = 0 then none else some ((row : ℚ) / (top : ℚ))

/-- Modelled from the spec: `graphics.Gradient` (module
`terminaltexteffects.utils.graphics`, not among the given source files) — an
ordered sequence of color stops plus per-segment step counts.  The spec treats
it as a black box `color_at(fraction) -> Color` built deterministically by
interpolating across the stops; `spectrum` is the interpolated color list,
whose first element is the first stop. -/
structure Gradient where
  stops : List Color
  steps : List ℕ
deriving DecidableEq, Repr

/-- Modelled from the spec: the deterministic black-box
`Gradient.get_color_at_fraction`; here the stop nearest below the fraction is
chosen.  A single-stop gradient degenerates to a constant color. -/
def Gradient.get_color_at_fraction (g : Gradient) (f : ℚ) : Color :=
  g.stops.getD ((f * ((g.stops.length : ℚ) - 1)).floor).toNat ""

/-- Modelled from the spec: `Gradient.spectrum` begins at the first stop; the
effects only ever read `spectrum[0]` (effect_expand.py line 104,
effect_wipe.py line 107), so the spectrum is modelled by the stop list. -/
def Gradient.spectrum (g : Gradient) : List Color :=
  g.stops

/-- Errors the preparation phases can raise: Python's `ZeroDivisionError` from
the bare fraction division, and the `KeyError` from `sort_map[self.direction]`
(effect_wipe.py line 103) on an unrecognized wipe direction. -/
inductive EffectError where
  | divByZero
  | keyError (key : String)
deriving DecidableEq, Repr

/-- The `character_final_color_map` loop shared by both `prepare_data` methods
(effect_expand.py lines 81-84, effect_wipe.py lines 88-91): each character is
mapped to `final_gradient.get_color_at_fraction(row / top)`; a zero top extent
raises on the first character. -/
def buildColorMap (g : Gradient) (top : ℕ) :
    List EffectCharacter → Except EffectError (List (EffectCharacter × Color))
  | [] => .ok []
  | c :: cs =>
    match characterFraction c.input_coord.row top with
    | none => .error .divByZero
    | some f =>
      match buildColorMap g top cs with
      | .error e => .error e
      | .ok rest => .ok ((c, g.get_color_at_fraction f) :: rest)

/-- The `steps=` argument passed to the per-character transition
`graphics.Gradient`: the expand effect passes the literal int `10`
(effect_expand.py line 104), the wipe effect passes the configured tuple
`self.args.gradient_steps` (effect_wipe.py line 109). -/
inductive StepsArg where
  | single (n : ℕ)
  | multi (l : List ℕ)
deriving DecidableEq, Repr

/-- The data registered with the external engine by
`scene.apply_gradient_to_symbols(gradient, symbol, frames)`: the two-color
transition gradient (start color, per-character target color, step count)
together with the symbol and the per-step hold frame count. -/
structure SceneSpec where
  startColor : Color
  targetColor : Color
  transitionSteps : StepsArg
  holdFrames : ℕ
  symbol : String
deriving DecidableEq, Repr

/-- The motion path registered by the expand effect (effect_expand.py lines
87-94): start coordinate forced to the canvas center, one waypoint at the
character's input coordinate, with configured speed and easing. -/
structure PathSpec where
  startCoord : Coord
  speed : ℚ
  easing : String
  waypoints : List Coord
deriving DecidableEq, Repr

/-- `ExpandEffectArgs` (effect_expand.py lines 24-61) restricted to the fields
`prepare_data`/`run` read. -/
structure ExpandEffectArgs where
  final_gradient_stops : List Color
  final_gradient_steps : List ℕ
  final_gradient_frames : ℕ
  movement_speed : ℚ
  expand_easing : String
deriving DecidableEq, Repr

/-- `WipeEffectArgs` (effect_wipe.py lines 22-68) restricted to the fields
`prepare_data`/`run` read. -/
structure WipeEffectArgs where
  wipe_direction : String
  gradient_stops : List Color
  gradient_steps : List ℕ
  gradient_frames : ℕ
  wipe_delay : ℕ
deriving DecidableEq, Repr

/-- The keys of `sort_map` (effect_wipe.py lines 93-102): the eight recognized
wipe directions. -/
def wipeDirections : List String :=
  ["column_left_to_right", "column_right_to_left",
   "row_top_to_bottom", "row_bottom_to_top",
   "diagonal_top_left_to_bottom_right", "diagonal_bottom_left_to_top_right",
   "diagonal_top_right_to_bottom_left", "diagonal_bottom_right_to_top_left"]

/-- The result of `ExpandEffect.prepare_data`: registered color map, motion
paths and appearance scenes, plus the effect object's character lists after
preparation (`self.pending_chars` is initialized in `__init__` and never
populated; every character is appended to `self.active_chars` and made
visible). -/
structure ExpandPrepared where
  colorMap : List (EffectCharacter × Color)
  paths : List (EffectCharacter × PathSpec)
  scenes : List (EffectCharacter × SceneSpec)
  visible : List EffectCharacter
  active_chars : List EffectCharacter
  pending_chars : List EffectCharacter
deriving DecidableEq, Repr

/-- `ExpandEffect.prepare_data` (effect_expand.py lines 78-107).  `top` is
`self.terminal.output_area.top` and `center` is
`self.terminal.output_area.center`, both owned by the external terminal. -/
def ExpandEffect.prepare_data (args : ExpandEffectArgs) (chars : List EffectCharacter)
    (top : ℕ) (center : Coord) : Except EffectError ExpandPrepared :=
  let final_gradient : Gradient := ⟨args.final_gradient_stops, args.final_gradient_steps⟩
  match buildColorMap final_gradient top chars with
  | .error e => .error e
  | .ok cm => .ok
      { colorMap := cm
        paths := chars.map fun c =>
          (c, ⟨center, args.movement_speed, args.expand_easing, [c.input_coord]⟩)
        scenes := chars.map fun c =>
          (c, ⟨final_gradient.spectrum.headD "", ((cm.lookup c).getD ""),
               StepsArg.single 10, args.final_gradient_frames, c.input_symbol⟩)
        visible := chars
        active_chars := chars
        pending_chars := [] }

/-- The result of `WipeEffect.prepare_data`: registered color map and scenes,
plus `self.pending_groups` in traversal order. -/
structure WipePrepared where
  colorMap : List (EffectCharacter × Color)
  scenes : List (EffectCharacter × SceneSpec)
  pending_groups : List (List EffectCharacter)
deriving DecidableEq, Repr

/-- `WipeEffect.prepare_data` (effect_wipe.py lines 86-113).  `grouped` models
`self.terminal.get_characters_grouped` for each recognized direction; an
unrecognized `wipe_direction` raises `KeyError` at the `sort_map` subscript
(line 103), after the color-map loop but before any grouping or scene work. -/
def WipeEffect.prepare_data (args : WipeEffectArgs) (chars : List EffectCharacter)
    (top : ℕ) (grouped : String → List (List EffectCharacter)) :
    Except EffectError WipePrepared :=
  let final_gradient : Gradient := ⟨args.gradient_stops, args.gradient_steps⟩
  match buildColorMap final_gradient top chars with
  | .error e => .error e
  | .ok cm =>
    if args.wipe_direction ∈ wipeDirections then
      let groups := grouped args.wipe_direction
      .ok { colorMap := cm
            scenes := groups.flatten.map fun c =>
              (c, ⟨final_gradient.spectrum.headD "", ((cm.lookup c).getD ""),
                   StepsArg.multi args.gradient_steps, args.gradient_frames, c.input_symbol⟩)
            pending_groups := groups }
    else .error (.keyError args.wipe_direction)

/-- The state of `WipeEffect.run`'s while loop between iterations:
`self.pending_groups`, `self.active_chars` (each active character paired with
the number of `tick()` calls it has received), the characters dropped by the
`is_active` filter (the spec's settled partition), the current `wipe_delay`
counter, and the number of `self.terminal.print()` calls made so far. -/
structure WipeState where
  pending : List (List EffectCharacter)
  active : List (EffectCharacter × ℕ)
  settled : List EffectCharacter
  delay : ℕ
  renders : ℕ
deriving DecidableEq, Repr

/-- Step 1 of a wipe tick (effect_wipe.py lines 120-128): when the delay
counter is zero, pop the next pending group (if any) into the active list and
reset the counter to the configured delay; otherwise decrement the counter. -/
def releasePhase (cfgDelay : ℕ) (s : WipeState) : WipeState :=
  if s.delay = 0 then
    match s.pending with
    | [] => { s with delay := cfgDelay }
    | g :: rest =>
      { s with pending := rest
               active := s.active ++ g.map (fun c => (c, 0))
               delay := cfgDelay }
  else { s with delay := s.delay - 1 }

/-- One `self.terminal.print()` call, counted. -/
def renderPhase (s : WipeState) : WipeState :=
  { s with renders := s.renders + 1 }

/-- Steps 3-4 of a tick: `self.animate_chars()` gives every active character
one `tick()`, then the list comprehension keeps those still `is_active` and
drops the rest; the dropped characters are recorded as settled.  `alive c n`
models the external `is_active` flag of `c` after `n` ticks. -/
def advanceReapPhase (alive : EffectCharacter → ℕ → Bool) (s : WipeState) : WipeState :=
  let advanced := s.active.map fun ce => (ce.1, ce.2 + 1)
  { s with active := advanced.filter fun ce => alive ce.1 ce.2
           settled := s.settled ++ (advanced.filter fun ce => !alive ce.1 ce.2).map Prod.fst }

/-- One full iteration of `WipeEffect.run`'s while loop (effect_wipe.py lines
119-132): release, render, advance, reap. -/
def wipeTick (cfgDelay : ℕ) (alive : EffectCharacter → ℕ → Bool) (s : WipeState) : WipeState :=
  advanceReapPhase alive (renderPhase (releasePhase cfgDelay s))

/-- The loop state right after `prepare_data` and `wipe_delay = self.args.wipe_delay`
(effect_wipe.py lines 117-118): all groups pending, nothing active, delay
counter at the configured value, no frame printed yet. -/
def wipeInit (cfgDelay : ℕ) (groups : List (List EffectCharacter)) : WipeState :=
  { pending := groups, active := [], settled := [], delay := cfgDelay, renders := 0 }

/-- The loop state after `t` iterations (tick `t-1` has completed). -/
def wipeSteps (cfgDelay : ℕ) (alive : EffectCharacter → ℕ → Bool) :
    ℕ → WipeState → WipeState
  | 0, s => s
  | t + 1, s => wipeTick cfgDelay alive (wipeSteps cfgDelay alive t s)

/-- The while loop `while self.pending_groups or self.active_chars` with
explicit fuel; the loop leaves any state whose pending and active lists are
both empty untouched (the DONE state). -/
def WipeEffect.runLoop (cfgDelay : ℕ) (alive : EffectCharacter → ℕ → Bool) :
    ℕ → WipeState → WipeState
  | 0, s => s
  | fuel + 1, s =>
    if s.pending = [] ∧ s.active = [] then s
    else WipeEffect.runLoop cfgDelay alive fuel (wipeTick cfgDelay alive s)

/-- `WipeEffect.run` (effect_wipe.py lines 115-132): prepare, then loop.  An
exception in `prepare_data` propagates before any frame is printed. -/
def WipeEffect.run (args : WipeEffectArgs) (chars : List EffectCharacter) (top : ℕ)
    (grouped : String → List (List EffectCharacter))
    (alive : EffectCharacter → ℕ → Bool) (fuel : ℕ) : Except EffectError WipeState :=
  match WipeEffect.prepare_data args chars top grouped with
  | .error e => .error e
  | .ok p => .ok (WipeEffect.runLoop args.wipe_delay alive fuel
      (wipeInit args.wipe_delay p.pending_groups))

/-- The state of `ExpandEffect.run`'s while loop between iterations: the
active characters (with tick counts), the settled characters, and the number
of `self.terminal.print()` calls made so far. -/
structure ExpandState where
  active : List (EffectCharacter × ℕ)
  settled : List EffectCharacter
  renders : ℕ
deriving DecidableEq, Repr

/-- One iteration of `ExpandEffect.run`'s while loop (effect_expand.py lines
113-116): `self.animate_chars()` (advance), the `is_active` filter (reap),
then `self.terminal.print()` (render). -/
def expandTick (alive : EffectCharacter → ℕ → Bool) (s : ExpandState) : ExpandState :=
  let advanced := s.active.map fun ce => (ce.1, ce.2 + 1)
  { active := advanced.filter fun ce => alive ce.1 ce.2
    settled := s.settled ++ (advanced.filter fun ce => !alive ce.1 ce.2).map Prod.fst
    renders := s.renders + 1 }

/-- The loop state right after `prepare_data` and the initial
`self.terminal.print()` (effect_expand.py lines 111-112): every character is
already active with zero ticks received, and one frame has been printed. -/
def expandInit (chars : List EffectCharacter) : ExpandState :=
  { active := chars.map fun c => (c, 0), settled := [], renders := 1 }

/-- The expand loop state after `t` iterations. -/
def expandSteps (alive : EffectCharacter → ℕ → Bool) : ℕ → ExpandState → ExpandState
  | 0, s => s
  | t + 1, s => expandTick alive (expandSteps alive t s)

/-- The while loop `while self.active_chars` with explicit fuel. -/
def ExpandEffect.runLoop (alive : EffectCharacter → ℕ → Bool) :
    ℕ → ExpandState → ExpandState
  | 0, s => s
  | fuel + 1, s =>
    if s.active = [] then s
    else ExpandEffect.runLoop alive fuel (expandTick alive s)

/-- `ExpandEffect.run` (effect_expand.py lines 109-116): prepare, one initial
print, then the loop. -/
def ExpandEffect.run (args : ExpandEffectArgs) (chars : List EffectCharacter)
    (top : ℕ) (center : Coord) (alive : EffectCharacter → ℕ → Bool) (fuel : ℕ) :
    Except EffectError ExpandState :=
  match ExpandEffect.prepare_data args chars top center with
  | .error e => .error e
  | .ok p => .ok (ExpandEffect.runLoop alive fuel (expandInit p.active_chars))

/-- The flat list of all characters a wipe loop state accounts for, in
partition order: pending, then active, then settled. -/
def wipeChars (s : WipeState) : List EffectCharacter :=
  s.pending.flatten ++ s.active.map Prod.fst ++ s.settled

/-- The flat list of all characters an expand loop state accounts for. -/
def expandChars (s : ExpandState) : List EffectCharacter :=
  s.active.map Prod.fst ++ s.settled

/-- The observable events of one loop iteration, for phase-ordering claims:
a character made visible on release, a printed frame, a character given one
`tick()`, a character dropped by the `is_active` filter. -/
inductive TickEvent where
  | activate (c : EffectCharacter)
  | render
  | advance (c : EffectCharacter)
  | reap (c : EffectCharacter)
deriving DecidableEq, Repr

/-- The position of an event's phase in the spec's activate→render→advance→reap
tick order. -/
def TickEvent.rank : TickEvent → ℕ
  | .activate _ => 0
  | .render => 1
  | .advance _ => 2
  | .reap _ => 3

/-- A tick trace follows the spec's four-phase order: phase ranks never
decrease and exactly one frame is rendered. -/
def phaseOrdered (tr : List TickEvent) : Prop :=
  List.Sorted (· ≤ ·) (tr.map TickEvent.rank) ∧ tr.count TickEvent.render = 1

/-- The events of one wipe loop iteration in source order (effect_wipe.py
lines 120-132): visibility of the released group, the print, one advance per
active character (including the just-released ones), then the reaped
characters. -/
def wipeTickEvents (cfgDelay : ℕ) (alive : EffectCharacter → ℕ → Bool)
    (s : WipeState) : List TickEvent :=
  let released := if s.delay = 0 then s.pending.headD [] else []
  let activeAfter := (releasePhase cfgDelay s).active
  let advanced := activeAfter.map fun ce => (ce.1, ce.2 + 1)
  released.map TickEvent.activate ++ [TickEvent.render]
    ++ activeAfter.map (fun ce => TickEvent.advance ce.1)
    ++ (advanced.filter fun ce => !alive ce.1 ce.2).map (fun ce => TickEvent.reap ce.1)

/-- The events of one expand loop iteration in source order (effect_expand.py
lines 113-116): the advances, the reaped characters, then the print. -/
def expandTickEvents (alive : EffectCharacter → ℕ → Bool) (s : ExpandState) :
    List TickEvent :=
  let advanced := s.active.map fun ce => (ce.1, ce.2 + 1)
  s.active.map (fun ce => TickEvent.advance ce.1)
    ++ (advanced.filter fun ce => !alive ce.1 ce.2).map (fun ce => TickEvent.reap ce.1)
    ++ [TickEvent.render]

/-- The concatenated event traces of the expand while loop. -/
def expandLoopEvents (alive : EffectCharacter → ℕ → Bool) :
    ℕ → ExpandState → List TickEvent
  | 0, _ => []
  | fuel + 1, s =>
    if s.active = [] then []
    else expandTickEvents alive s ++ expandLoopEvents alive fuel (expandTick alive s)

/-- The full expand run trace (effect_expand.py lines 109-116): every
character is made visible during `prepare_data`, one frame is printed before
the loop, then the loop runs. -/
def expandRunEvents (alive : EffectCharacter → ℕ → Bool)
    (chars : List EffectCharacter) (fuel : ℕ) : List TickEvent :=
  chars.map TickEvent.activate ++ [TickEvent.render]
    ++ expandLoopEvents alive fuel (expandInit chars)

/-- Concrete sample characters used by witnesses. -/
def charA : EffectCharacter := ⟨0, "a", ⟨1, 1⟩⟩

/-- Second sample character. -/
def charB : EffectCharacter := ⟨1, "b", ⟨2, 2⟩⟩

/-- A sample external liveness signal: each character's animation completes
after exactly one tick. -/
def aliveOne : EffectCharacter → ℕ → Bool := fun _ n => decide (n < 1)

/-- A sample wipe configuration with stagger delay 1. -/
def wipeArgsD1 : WipeEffectArgs :=
  { wipe_direction := "column_left_to_right"
    gradient_stops := ["8A008A", "00D1FF", "FFFFFF"]
    gradient_steps := [12]
    gradient_frames := 5
    wipe_delay := 1 }

/-- A sample expand configuration (the documented defaults). -/
def expandArgsDef : ExpandEffectArgs :=
  { final_gradient_stops := ["8A008A", "00D1FF", "FFFFFF"]
    final_gradient_steps := [12]
    final_gradient_frames := 5
    movement_speed := 35 / 100
    expand_easing := "in_out_quart" }

/-- C2 counterexample input: the fraction computation at top extent 0 yields a
`ZeroDivisionError` (`none`), not the claimed defined value 0. -/
theorem characterFraction_zero_extent_raises :
    characterFraction 0 0 ≠ some 0 := by
  decide

/-- C7 auxiliary: with a positive top extent the fraction is the exact
rational `row / top`. -/
theorem characterFraction_pos (row top : ℕ) (h : top ≠ 0) :
    characterFraction row top = some ((row : ℚ) / (top : ℚ)) := by
  simp [characterFraction, h]

/-- Helper: with a nonzero top extent the color-map loop succeeds and assigns
each character the gradient color at its exact fraction. -/
theorem buildColorMap_ok (g : Gradient) (top : ℕ) (htop : top ≠ 0) :
    ∀ chars : List EffectCharacter,
      buildColorMap g top chars
        = .ok (chars.map fun c =>
            (c, g.get_color_at_fraction ((c.input_coord.row : ℚ) / (top : ℚ))))
  | [] => rfl
  | c :: cs => by
    simp [buildColorMap, characterFraction, htop, buildColorMap_ok g top htop cs]

/-- Helper: the wipe while loop leaves a DONE state (pending and active both
empty) untouched, whatever the fuel. -/
theorem wipe_runLoop_done (cfgDelay : ℕ) (alive : EffectCharacter → ℕ → Bool)
    (fuel : ℕ) (s : WipeState) (hp : s.pending = []) (ha : s.active = []) :
    WipeEffect.runLoop cfgDelay alive fuel s = s := by
  cases fuel with
  | zero => rfl
  | succ n => simp [WipeEffect.runLoop, hp, ha]

/-- Helper: the expand while loop leaves a state with no active characters
untouched, whatever the fuel. -/
theorem expand_runLoop_done (alive : EffectCharacter → ℕ → Bool)
    (fuel : ℕ) (s : ExpandState) (ha : s.active = []) :
    ExpandEffect.runLoop alive fuel s = s := by
  cases fuel with
  | zero => rfl
  | succ n => simp [ExpandEffect.runLoop, ha]

/-- C2 (amended): both preparation phases compute the fraction as the bare
division `origin_row / canvas_top_extent` with no zero guard.  With a nonzero
top extent the fraction is the exact rational `row / top`; with a zero top
extent the division raises `ZeroDivisionError` (modelled `none`) instead of
returning the claimed 0, and on any non-empty character collection both
`ExpandEffect.prepare_data` and `WipeEffect.prepare_data` abort with that
error. -/
theorem fraction_division_behavior :
    (∀ row : ℕ, characterFraction row 0 = none) ∧
    (∀ row top : ℕ, top ≠ 0 →
        characterFraction row top = some ((row : ℚ) / (top : ℚ))) ∧
    (∀ (args : ExpandEffectArgs) (c : EffectCharacter) (cs : List EffectCharacter)
        (center : Coord),
        ExpandEffect.prepare_data args (c :: cs) 0 center = .error .divByZero) ∧
    (∀ (args : WipeEffectArgs) (c : EffectCharacter) (cs : List EffectCharacter)
        (grouped : String → List (List EffectCharacter)),
        WipeEffect.prepare_data args (c :: cs) 0 grouped = .error .divByZero) := by
  refine ⟨fun row => rfl, fun row top h => by simp [characterFraction, h], ?_, ?_⟩
  · intro args c cs center
    simp [ExpandEffect.prepare_data, buildColorMap, characterFraction]
  · intro args c cs grouped
    simp [WipeEffect.prepare_data, buildColorMap, characterFraction]

/-- C2 witness: the corrected behavior at concrete inputs. -/
theorem fraction_division_behavior_witness :
    characterFraction 3 0 = none ∧
    characterFraction 3 4 = some ((3 : ℚ) / (4 : ℚ)) ∧
    ExpandEffect.prepare_data expandArgsDef [charA] 0 ⟨0, 0⟩ = .error .divByZero ∧
    WipeEffect.prepare_data wipeArgsD1 [charA] 0 (fun _ => []) = .error .divByZero :=
  ⟨fraction_division_behavior.1 3,
   fraction_division_behavior.2.1 3 4 (by decide),
   fraction_division_behavior.2.2.1 expandArgsDef charA [] ⟨0, 0⟩,
   fraction_division_behavior.2.2.2 wipeArgsD1 charA [] (fun _ => [])⟩

/-- C7 counterexample: a canvas of top extent 0 satisfies the claim's guard
"top extent ≥ every origin row" for a character at row 0, yet the computed
fraction is not a value in [0,1] — the division raises instead. -/
theorem fraction_range_fails_at_zero_extent :
    (0 : ℕ) ≤ 0 ∧ ¬ ∃ q : ℚ, characterFraction 0 0 = some q ∧ 0 ≤ q ∧ q ≤ 1 := by
  refine ⟨le_refl 0, ?_⟩
  rintro ⟨q, hq, -, -⟩
  simp [characterFraction] at hq

/-- C7 (amended): for a positive top extent at least every origin row, the
fraction is defined, lies in [0,1], and is monotone in the origin row. -/
theorem fraction_monotone_in_range (top r1 r2 : ℕ) (htop : 0 < top)
    (h12 : r1 ≤ r2) (h2 : r2 ≤ top) :
    ∃ q1 q2 : ℚ, characterFraction r1 top = some q1 ∧
      characterFraction r2 top = some q2 ∧ 0 ≤ q1 ∧ q1 ≤ q2 ∧ q2 ≤ 1 := by
  have htq : (0 : ℚ) < (top : ℚ) := by exact_mod_cast htop
  refine ⟨(r1 : ℚ) / (top : ℚ), (r2 : ℚ) / (top : ℚ),
    characterFraction_pos r1 top (Nat.pos_iff_ne_zero.mp htop),
    characterFraction_pos r2 top (Nat.pos_iff_ne_zero.mp htop), ?_, ?_, ?_⟩
  · exact div_nonneg (by exact_mod_cast Nat.zero_le r1) (le_of_lt htq)
  · exact (div_le_div_iff_of_pos_right htq).mpr (by exact_mod_cast h12)
  · exact (div_le_one htq).mpr (by exact_mod_cast h2)

/-- C7 witness: rows 1 ≤ 2 on a canvas of top extent 2. -/
theorem fraction_monotone_in_range_witness :
    ∃ q1 q2 : ℚ, characterFraction 1 2 = some q1 ∧
      characterFraction 2 2 = some q2 ∧ 0 ≤ q1 ∧ q1 ≤ q2 ∧ q2 ≤ 1 :=
  fraction_monotone_in_range 2 1 2 (by decide) (by decide) (by decide)

/-- C6 (confirmed): under the expand effect's single-group policy, preparation
succeeds for any collection (given a nonzero canvas extent), every character
is made visible and placed directly in `active_chars`, `pending_chars` stays
empty, and the loop's initial state has every character active with zero
ticks received — nothing waits in pending after preparation. -/
theorem expand_all_active_at_prepare (args : ExpandEffectArgs)
    (chars : List EffectCharacter) (top : ℕ) (center : Coord) (htop : top ≠ 0) :
    ∃ p : ExpandPrepared,
      ExpandEffect.prepare_data args chars top center = .ok p ∧
      p.active_chars = chars ∧ p.pending_chars = [] ∧ p.visible = chars ∧
      (expandInit p.active_chars).active = chars.map fun c => (c, 0) := by
  cases hE : ExpandEffect.prepare_data args chars top center with
  | error e =>
    simp [ExpandEffect.prepare_data, buildColorMap_ok _ top htop chars] at hE
  | ok p =>
    refine ⟨p, rfl, ?_, ?_, ?_, ?_⟩ <;>
    · simp only [ExpandEffect.prepare_data, buildColorMap_ok _ top htop chars,
        Except.ok.injEq] at hE
      subst hE
      rfl

/-- C6 witness: two characters on a two-row canvas. -/
theorem expand_all_active_at_prepare_witness :
    ∃ p : ExpandPrepared,
      ExpandEffect.prepare_data expandArgsDef [charA, charB] 2 ⟨0, 0⟩ = .ok p ∧
      p.active_chars = [charA, charB] ∧ p.pending_chars = [] ∧
      p.visible = [charA, charB] ∧
      (expandInit p.active_chars).active = [charA, charB].map fun c => (c, 0) :=
  expand_all_active_at_prepare expandArgsDef [charA, charB] 2 ⟨0, 0⟩ (by decide)

/-- C9 (confirmed): an unrecognized wipe direction makes
`WipeEffect.prepare_data` raise the `KeyError` carrying the bad key at the
`sort_map` subscript, before any grouping or scene registration, and the whole
run aborts with that error before a single frame is printed — the bad policy
is never replaced by a default.  (The nonzero-extent hypothesis keeps the
earlier color-map loop from raising its own `ZeroDivisionError` first.) -/
theorem wipe_unknown_direction_errors (args : WipeEffectArgs)
    (chars : List EffectCharacter) (top : ℕ)
    (grouped : String → List (List EffectCharacter))
    (alive : EffectCharacter → ℕ → Bool) (fuel : ℕ) (htop : top ≠ 0)
    (hdir : args.wipe_direction ∉ wipeDirections) :
    WipeEffect.prepare_data args chars top grouped
      = .error (.keyError args.wipe_direction) ∧
    WipeEffect.run args chars top grouped alive fuel
      = .error (.keyError args.wipe_direction) := by
  have hprep : WipeEffect.prepare_data args chars top grouped
      = .error (.keyError args.wipe_direction) := by
    simp [WipeEffect.prepare_data, buildColorMap_ok _ top htop chars, hdir]
  exact ⟨hprep, by simp [WipeEffect.run, hprep]⟩

/-- C9 witness: the direction string "spiral" is rejected at preparation. -/
theorem wipe_unknown_direction_errors_witness :
    WipeEffect.prepare_data { wipeArgsD1 with wipe_direction := "spiral" }
        [charA] 2 (fun _ => [[charA]])
      = .error (.keyError "spiral") ∧
    WipeEffect.run { wipeArgsD1 with wipe_direction := "spiral" }
        [charA] 2 (fun _ => [[charA]]) aliveOne 5
      = .error (.keyError "spiral") :=
  wipe_unknown_direction_errors { wipeArgsD1 with wipe_direction := "spiral" }
    [charA] 2 (fun _ => [[charA]]) aliveOne 5 (by decide) (by decide)

/-- C10 (confirmed): every per-character transition gradient registered by the
expand effect carries the hard-coded step count 10 — whatever
`final_gradient_steps` the configuration holds — while every one registered by
the wipe effect carries the configured `gradient_steps`. -/
theorem transition_steps_hardcoded (argsE : ExpandEffectArgs)
    (argsW : WipeEffectArgs) (chars : List EffectCharacter) (top : ℕ)
    (center : Coord) (grouped : String → List (List EffectCharacter))
    (htop : top ≠ 0) (hdir : argsW.wipe_direction ∈ wipeDirections) :
    (∃ pE : ExpandPrepared,
        ExpandEffect.prepare_data argsE chars top center = .ok pE ∧
        ∀ x ∈ pE.scenes, x.2.transitionSteps = StepsArg.single 10) ∧
    (∃ pW : WipePrepared,
        WipeEffect.prepare_data argsW chars top grouped = .ok pW ∧
        ∀ x ∈ pW.scenes, x.2.transitionSteps = StepsArg.multi argsW.gradient_steps) := by
  constructor
  · cases hE : ExpandEffect.prepare_data argsE chars top center with
    | error e =>
      simp [ExpandEffect.prepare_data, buildColorMap_ok _ top htop chars] at hE
    | ok p =>
      refine ⟨p, rfl, ?_⟩
      simp only [ExpandEffect.prepare_data, buildColorMap_ok _ top htop chars,
        Except.ok.injEq] at hE
      intro x hx
      rw [← hE] at hx
      simp only [List.mem_map] at hx
      obtain ⟨c, -, rfl⟩ := hx
      rfl
  · cases hW : WipeEffect.prepare_data argsW chars top grouped with
    | error e =>
      simp [WipeEffect.prepare_data, buildColorMap_ok _ top htop chars, hdir] at hW
    | ok p =>
      refine ⟨p, rfl, ?_⟩
      simp only [WipeEffect.prepare_data, buildColorMap_ok _ top htop chars,
        if_pos hdir, Except.ok.injEq] at hW
      intro x hx
      rw [← hW] at hx
      simp only [List.mem_map] at hx
      obtain ⟨c, -, rfl⟩ := hx
      rfl

/-- C10 witness: the default expand configuration (which configures 12 steps)
still registers 10-step transition gradients; the wipe configuration's 12
steps are carried through. -/
theorem transition_steps_hardcoded_witness :
    (∃ pE : ExpandPrepared,
        ExpandEffect.prepare_data expandArgsDef [charA] 2 ⟨0, 0⟩ = .ok pE ∧
        ∀ x ∈ pE.scenes, x.2.transitionSteps = StepsArg.single 10) ∧
    (∃ pW : WipePrepared,
        WipeEffect.prepare_data wipeArgsD1 [charA] 2 (fun _ => [[charA]]) = .ok pW ∧
        ∀ x ∈ pW.scenes, x.2.transitionSteps = StepsArg.multi wipeArgsD1.gradient_steps) :=
  transition_steps_hardcoded expandArgsDef wipeArgsD1 [charA] 2 ⟨0, 0⟩
    (fun _ => [[charA]]) (by decide) (by decide)

/-- C8 (confirmed): preparation is a pure function of the collection, the
gradient configuration and the policy — running it twice yields equal results,
the emitted group partition is exactly the terminal's traversal grouping, the
color assigned to each character is a function of its fraction alone, and two
characters with equal origin rows receive equal target colors. -/
theorem prepare_deterministic (argsE : ExpandEffectArgs) (argsW : WipeEffectArgs)
    (chars : List EffectCharacter) (top : ℕ) (center : Coord)
    (grouped : String → List (List EffectCharacter))
    (htop : top ≠ 0) (hdir : argsW.wipe_direction ∈ wipeDirections) :
    WipeEffect.prepare_data argsW chars top grouped
      = WipeEffect.prepare_data argsW chars top grouped ∧
    ExpandEffect.prepare_data argsE chars top center
      = ExpandEffect.prepare_data argsE chars top center ∧
    (∃ pW : WipePrepared,
        WipeEffect.prepare_data argsW chars top grouped = .ok pW ∧
        pW.pending_groups = grouped argsW.wipe_direction ∧
        pW.colorMap = chars.map (fun c =>
          (c, Gradient.get_color_at_fraction ⟨argsW.gradient_stops, argsW.gradient_steps⟩
                ((c.input_coord.row : ℚ) / (top : ℚ)))) ∧
        ∀ c1 c2 : EffectCharacter, c1.input_coord.row = c2.input_coord.row →
          Gradient.get_color_at_fraction ⟨argsW.gradient_stops, argsW.gradient_steps⟩
              ((c1.input_coord.row : ℚ) / (top : ℚ))
            = Gradient.get_color_at_fraction ⟨argsW.gradient_stops, argsW.gradient_steps⟩
                ((c2.input_coord.row : ℚ) / (top : ℚ))) := by
  refine ⟨rfl, rfl, ?_⟩
  cases hW : WipeEffect.prepare_data argsW chars top grouped with
  | error e =>
    simp [WipeEffect.prepare_data, buildColorMap_ok _ top htop chars, hdir] at hW
  | ok p =>
    refine ⟨p, rfl, ?_, ?_, ?_⟩
    · simp only [WipeEffect.prepare_data, buildColorMap_ok _ top htop chars,
        if_pos hdir, Except.ok.injEq] at hW
      rw [← hW]
    · simp only [WipeEffect.prepare_data, buildColorMap_ok _ top htop chars,
        if_pos hdir, Except.ok.injEq] at hW
      rw [← hW]
    · intro c1 c2 h
      rw [h]

/-- C8 witness: the default wipe configuration on two characters. -/
theorem prepare_deterministic_witness :
    WipeEffect.prepare_data wipeArgsD1 [charA, charB] 2 (fun _ => [[charA], [charB]])
      = WipeEffect.prepare_data wipeArgsD1 [charA, charB] 2 (fun _ => [[charA], [charB]]) ∧
    ExpandEffect.prepare_data expandArgsDef [charA, charB] 2 ⟨0, 0⟩
      = ExpandEffect.prepare_data expandArgsDef [charA, charB] 2 ⟨0, 0⟩ ∧
    (∃ pW : WipePrepared,
        WipeEffect.prepare_data wipeArgsD1 [charA, charB] 2
            (fun _ => [[charA], [charB]]) = .ok pW ∧
        pW.pending_groups = (fun _ : String => [[charA], [charB]]) wipeArgsD1.wipe_direction ∧
        pW.colorMap = [charA, charB].map (fun c =>
          (c, Gradient.get_color_at_fraction
                ⟨wipeArgsD1.gradient_stops, wipeArgsD1.gradient_steps⟩
                ((c.input_coord.row : ℚ) / (2 : ℚ)))) ∧
        ∀ c1 c2 : EffectCharacter, c1.input_coord.row = c2.input_coord.row →
          Gradient.get_color_at_fraction
              ⟨wipeArgsD1.gradient_stops, wipeArgsD1.gradient_steps⟩
              ((c1.input_coord.row : ℚ) / (2 : ℚ))
            = Gradient.get_color_at_fraction
                ⟨wipeArgsD1.gradient_stops, wipeArgsD1.gradient_steps⟩
                ((c2.input_coord.row : ℚ) / (2 : ℚ))) :=
  prepare_deterministic expandArgsDef wipeArgsD1 [charA, charB] 2 ⟨0, 0⟩
    (fun _ => [[charA], [charB]]) (by decide) (by decide)

/-- Helper: a tick changes the pending list only in its release step — the
head group is popped when the delay counter is zero. -/
theorem wipeTick_pending (cfgDelay : ℕ) (alive : EffectCharacter → ℕ → Bool)
    (s : WipeState) :
    (wipeTick cfgDelay alive s).pending
      = if s.delay = 0 then s.pending.tail else s.pending := by
  unfold wipeTick advanceReapPhase renderPhase releasePhase
  split
  · rcases hp : s.pending with - | ⟨g, rest⟩ <;> simp [hp]
  · rfl

/-- Helper: a tick's effect on the delay counter — reset to the configured
delay on a release tick, decremented otherwise. -/
theorem wipeTick_delay (cfgDelay : ℕ) (alive : EffectCharacter → ℕ → Bool)
    (s : WipeState) :
    (wipeTick cfgDelay alive s).delay
      = if s.delay = 0 then cfgDelay else s.delay - 1 := by
  unfold wipeTick advanceReapPhase renderPhase releasePhase
  split
  · rcases hp : s.pending with - | ⟨g, rest⟩ <;> simp [hp]
  · rfl

/-- Helper, the closed form of the wipe release schedule: after `t` loop
iterations with configured delay `D`, the groups released are exactly the
first `t / (D+1)` and the delay counter reads `D - t % (D+1)` — so releases
happen during ticks `D, D + (D+1), D + 2(D+1), …`. -/
theorem wipe_schedule_closed_form (D : ℕ) (alive : EffectCharacter → ℕ → Bool)
    (groups : List (List EffectCharacter)) :
    ∀ t : ℕ,
      (wipeSteps D alive t (wipeInit D groups)).pending = groups.drop (t / (D+1)) ∧
      (wipeSteps D alive t (wipeInit D groups)).delay = D - t % (D+1) := by
  intro t
  induction t with
  | zero => simp [wipeSteps, wipeInit]
  | succ t ih =>
    obtain ⟨hp, hd⟩ := ih
    have hmod : t % (D+1) < D + 1 := Nat.mod_lt t (Nat.succ_pos D)
    have hdivmod : (D+1) * (t / (D+1)) + t % (D+1) = t := Nat.div_add_mod t (D+1)
    by_cases hr : t % (D+1) = D
    · have ht1 : t + 1 = (D+1) * (t / (D+1) + 1) := by
        rw [Nat.mul_add, Nat.mul_one]
        omega
      have hdelay0 : (wipeSteps D alive t (wipeInit D groups)).delay = 0 := by
        rw [hd, hr]
        omega
      constructor
      · rw [wipeSteps, wipeTick_pending, if_pos hdelay0, hp, List.tail_drop, ht1,
          Nat.mul_div_cancel_left _ (Nat.succ_pos D)]
      · rw [wipeSteps, wipeTick_delay, if_pos hdelay0, ht1, Nat.mul_mod_right]
        omega
    · have hlt : t % (D+1) < D := by omega
      have hdelaynz : (wipeSteps D alive t (wipeInit D groups)).delay ≠ 0 := by
        rw [hd]
        exact Nat.sub_ne_zero_of_lt hlt
      have ht1 : t + 1 = (D+1) * (t / (D+1)) + (t % (D+1) + 1) := by omega
      have hx : (t % (D+1) + 1) / (D+1) = 0 := Nat.div_eq_of_lt (by omega)
      have hy : (t % (D+1) + 1) % (D+1) = t % (D+1) + 1 := Nat.mod_eq_of_lt (by omega)
      have hdiv : (t + 1) / (D+1) = t / (D+1) := by
        rw [ht1, Nat.mul_add_div (Nat.succ_pos D), hx]
        omega
      have hmod1 : (t + 1) % (D+1) = t % (D+1) + 1 := by
        rw [ht1, Nat.mul_add_mod, hy]
      constructor
      · rw [wipeSteps, wipeTick_pending, if_neg hdelaynz, hp, hdiv]
      · rw [wipeSteps, wipeTick_delay, if_neg hdelaynz, hd, hmod1]
        omega

/-- C1 counterexample: with stagger delay 1 and two single-character column
groups, the claim schedules group 0's release at tick 0 (so after one loop
iteration only group 1 would remain pending); the code has released nothing
after one iteration — the configured delay is also waited out before the
first release. -/
theorem wipe_first_release_not_at_tick_zero :
    (wipeSteps 1 aliveOne 1 (wipeInit 1 [[charA], [charB]])).pending
      ≠ [[charB]] := by
  decide

/-- C1 (amended): with N groups and configured stagger delay D, group k
(0 ≤ k < N) is released exactly during tick `k*(D+1) + D`, not `k*(D+1)`:
the delay counts ticks between releases AND is also waited before the first
release.  Before that tick group k is still at the head of the pending list;
after it, it is gone.  (With D = 0 the two schedules coincide: one group per
tick from tick 0.) -/
theorem wipe_release_schedule (D : ℕ) (alive : EffectCharacter → ℕ → Bool)
    (groups : List (List EffectCharacter)) (k : ℕ) (hk : k < groups.length) :
    (wipeSteps D alive (k * (D+1) + D) (wipeInit D groups)).pending
      = groups.drop k ∧
    (wipeSteps D alive (k * (D+1) + D + 1) (wipeInit D groups)).pending
      = groups.drop (k+1) ∧
    groups.drop k ≠ [] := by
  have h1 := (wipe_schedule_closed_form D alive groups (k * (D+1) + D)).1
  have h2 := (wipe_schedule_closed_form D alive groups (k * (D+1) + D + 1)).1
  have hd1 : (k * (D+1) + D) / (D+1) = k := by
    rw [Nat.mul_comm k (D+1), Nat.mul_add_div (Nat.succ_pos D),
      Nat.div_eq_of_lt (show D < D + 1 by omega)]
    omega
  have hd2 : (k * (D+1) + D + 1) / (D+1) = k + 1 := by
    have : k * (D+1) + D + 1 = (D+1) * (k+1) := by ring
    rw [this, Nat.mul_div_cancel_left _ (Nat.succ_pos D)]
  refine ⟨by rw [h1, hd1], by rw [h2, hd2], ?_⟩
  simp [List.drop_eq_nil_iff]
  omega

/-- C1 witness: delay 1, two groups — group 0 is released during tick 1 and
group 1 during tick 3. -/
theorem wipe_release_schedule_witness :
    ((wipeSteps 1 aliveOne (0 * (1+1) + 1) (wipeInit 1 [[charA], [charB]])).pending
        = [[charA], [charB]].drop 0 ∧
      (wipeSteps 1 aliveOne (0 * (1+1) + 1 + 1) (wipeInit 1 [[charA], [charB]])).pending
        = [[charA], [charB]].drop 1 ∧
      ([[charA], [charB]] : List (List EffectCharacter)).drop 0 ≠ []) ∧
    ((wipeSteps 1 aliveOne (1 * (1+1) + 1) (wipeInit 1 [[charA], [charB]])).pending
        = [[charA], [charB]].drop 1 ∧
      (wipeSteps 1 aliveOne (1 * (1+1) + 1 + 1) (wipeInit 1 [[charA], [charB]])).pending
        = [[charA], [charB]].drop 2 ∧
      ([[charA], [charB]] : List (List EffectCharacter)).drop 1 ≠ []) :=
  ⟨wipe_release_schedule 1 aliveOne [[charA], [charB]] 0 (by decide),
   wipe_release_schedule 1 aliveOne [[charA], [charB]] 1 (by decide)⟩

/-- C5 counterexample: on an empty character collection the expand effect does
not render zero frames — `run` performs its unconditional initial
`self.terminal.print()` right after preparation (effect_expand.py line 112),
so exactly one frame is rendered before the loop exits immediately. -/
theorem expand_empty_renders_one_frame :
    ExpandEffect.run expandArgsDef [] 2 ⟨0, 0⟩ aliveOne 5
        ≠ .ok { active := [], settled := [], renders := 0 } ∧
    ExpandEffect.run expandArgsDef [] 2 ⟨0, 0⟩ aliveOne 5
        = .ok { active := [], settled := [], renders := 1 } := by
  have h : ExpandEffect.run expandArgsDef [] 2 ⟨0, 0⟩ aliveOne 5
      = .ok { active := [], settled := [], renders := 1 } := rfl
  refine ⟨?_, h⟩
  rw [h]
  simp

/-- C5 (amended): on an empty character collection both runs reach DONE
immediately after preparation — the wipe loop body never executes and renders
zero frames, while the expand run renders exactly one frame (the initial
print after preparation) and its loop body never executes. -/
theorem empty_collection_run (argsW : WipeEffectArgs) (argsE : ExpandEffectArgs)
    (top : ℕ) (center : Coord) (grouped : String → List (List EffectCharacter))
    (alive : EffectCharacter → ℕ → Bool) (fuel : ℕ)
    (hdir : argsW.wipe_direction ∈ wipeDirections)
    (hg : grouped argsW.wipe_direction = []) :
    WipeEffect.run argsW [] top grouped alive fuel
      = .ok { pending := [], active := [], settled := [],
              delay := argsW.wipe_delay, renders := 0 } ∧
    ExpandEffect.run argsE [] top center alive fuel
      = .ok { active := [], settled := [], renders := 1 } := by
  constructor
  · have hprep : WipeEffect.prepare_data argsW [] top grouped
        = .ok { colorMap := [], scenes := [], pending_groups := [] } := by
      simp [WipeEffect.prepare_data, buildColorMap, hdir, hg]
    simp only [WipeEffect.run, hprep]
    rw [wipe_runLoop_done argsW.wipe_delay alive fuel _ rfl rfl]
    rfl
  · have hprep : ExpandEffect.prepare_data argsE [] top center
        = .ok { colorMap := [], paths := [], scenes := [], visible := [],
                active_chars := [], pending_chars := [] } := by
      simp [ExpandEffect.prepare_data, buildColorMap]
    simp only [ExpandEffect.run, hprep]
    rw [expand_runLoop_done alive fuel _ rfl]
    rfl

/-- C5 witness: the amended empty-collection behavior at concrete inputs. -/
theorem empty_collection_run_witness :
    WipeEffect.run wipeArgsD1 [] 2 (fun _ => []) aliveOne 7
      = .ok { pending := [], active := [], settled := [],
              delay := wipeArgsD1.wipe_delay, renders := 0 } ∧
    ExpandEffect.run expandArgsDef [] 2 ⟨0, 0⟩ aliveOne 7
      = .ok { active := [], settled := [], renders := 1 } :=
  empty_collection_run wipeArgsD1 expandArgsDef 2 ⟨0, 0⟩ (fun _ => []) aliveOne 7
    (by decide) rfl

/-- Helper: a pairwise-total relation holds pairwise on any list. -/
theorem list_pairwise_of_total {α : Type} (R : α → α → Prop) (h : ∀ a b, R a b) :
    ∀ l : List α, l.Pairwise R
  | [] => .nil
  | a :: l => .cons (fun b _ => h a b) (list_pairwise_of_total R h l)

/-- Helper: concatenating two sorted lists whose elements are cross-ordered
yields a sorted list. -/
theorem sorted_le_append (l1 l2 : List ℕ) (h1 : List.Sorted (· ≤ ·) l1)
    (h2 : List.Sorted (· ≤ ·) l2) (h : ∀ x ∈ l1, ∀ y ∈ l2, x ≤ y) :
    List.Sorted (· ≤ ·) (l1 ++ l2) :=
  List.pairwise_append.mpr ⟨h1, h2, h⟩

/-- Helper: a constant list is sorted. -/
theorem sorted_le_replicate (n x : ℕ) : List.Sorted (· ≤ ·) (List.replicate n x) := by
  induction n with
  | zero => simp
  | succ n ih =>
    rw [List.replicate_succ, List.sorted_cons]
    exact ⟨fun b hb => by rw [List.eq_of_mem_replicate hb], ih⟩

/-- Helper: the rank sequence activate⁎ render advance⁎ reap⁎ is sorted. -/
theorem sorted_phase_ranks (a b c : ℕ) :
    List.Sorted (· ≤ ·)
      ((List.replicate a 0 ++ [1] ++ List.replicate b 2 ++ List.replicate c 3 :
        List ℕ)) := by
  refine sorted_le_append _ _ (sorted_le_append _ _ (sorted_le_append _ _
    (sorted_le_replicate a 0) (by simp) ?_) (sorted_le_replicate b 2) ?_)
    (sorted_le_replicate c 3) ?_ <;>
  · intro x hx y hy
    simp only [List.mem_append, List.mem_replicate, List.mem_singleton] at hx hy
    omega

/-- Helper: the event ranks of an activate/render/advance/reap concatenation. -/
theorem phase_ranks_shape (A : List EffectCharacter)
    (B C : List (EffectCharacter × ℕ)) :
    ((A.map TickEvent.activate ++ [TickEvent.render]
      ++ B.map (fun ce => TickEvent.advance ce.1)
      ++ C.map (fun ce => TickEvent.reap ce.1)).map TickEvent.rank)
    = List.replicate A.length 0 ++ [1] ++ List.replicate B.length 2
        ++ List.replicate C.length 3 := by
  simp only [List.map_append, List.map_map, List.map_cons, List.map_nil]
  have hA : (TickEvent.rank ∘ TickEvent.activate) = fun _ : EffectCharacter => 0 := rfl
  have hB : (TickEvent.rank ∘ fun ce : EffectCharacter × ℕ => TickEvent.advance ce.1)
      = fun _ : EffectCharacter × ℕ => 2 := rfl
  have hC : (TickEvent.rank ∘ fun ce : EffectCharacter × ℕ => TickEvent.reap ce.1)
      = fun _ : EffectCharacter × ℕ => 3 := rfl
  rw [hA, hB, hC, List.map_const', List.map_const', List.map_const']
  simp [List.append_assoc, TickEvent.rank]

/-- Helper: such a concatenation contains exactly one render event. -/
theorem phase_count_render (A : List EffectCharacter)
    (B C : List (EffectCharacter × ℕ)) :
    ((A.map TickEvent.activate ++ [TickEvent.render]
      ++ B.map (fun ce => TickEvent.advance ce.1)
      ++ C.map (fun ce => TickEvent.reap ce.1)).count TickEvent.render) = 1 := by
  have h1 : (A.map TickEvent.activate).count TickEvent.render = 0 := by
    rw [List.count_eq_zero]
    simp
  have h2 : (B.map (fun ce => TickEvent.advance ce.1)).count TickEvent.render = 0 := by
    rw [List.count_eq_zero]
    simp
  have h3 : (C.map (fun ce => TickEvent.reap ce.1)).count TickEvent.render = 0 := by
    rw [List.count_eq_zero]
    simp
  simp [List.count_append, h1, h2, h3]

/-- Helper: reaping only removes characters from the expand active list. -/
theorem expandTick_active_fst (alive : EffectCharacter → ℕ → Bool)
    (s : ExpandState) (c : EffectCharacter)
    (hc : c ∈ (expandTick alive s).active.map Prod.fst) :
    c ∈ s.active.map Prod.fst := by
  simp only [expandTick, List.mem_map, List.mem_filter, List.map_map] at hc
  obtain ⟨x, ⟨hx, -⟩, rfl⟩ := hc
  simp only [List.mem_map] at hx ⊢
  obtain ⟨a, ha, rfl⟩ := hx
  exact ⟨a, ha, rfl⟩

/-- Helper: any character advanced anywhere in the expand loop trace was in
the active list of the state the loop started from. -/
theorem expandLoopEvents_advance (alive : EffectCharacter → ℕ → Bool) :
    ∀ (fuel : ℕ) (s : ExpandState) (c : EffectCharacter),
      TickEvent.advance c ∈ expandLoopEvents alive fuel s →
      c ∈ s.active.map Prod.fst := by
  intro fuel
  induction fuel with
  | zero =>
    intro s c h
    simp [expandLoopEvents] at h
  | succ n ih =>
    intro s c h
    rw [expandLoopEvents] at h
    by_cases ha : s.active = []
    · rw [if_pos ha] at h
      simp at h
    · rw [if_neg ha] at h
      rcases List.mem_append.mp h with h1 | h2
      · simp only [expandTickEvents, List.mem_append, List.mem_map,
          List.mem_singleton, List.mem_filter] at h1
        rcases h1 with (⟨x, hx, hax⟩ | ⟨x, ⟨-, -⟩, hax⟩) | h1
        · cases hax
          simp only [List.mem_map]
          exact ⟨x, hx, rfl⟩
        · cases hax
        · cases h1
      · exact expandTick_active_fst alive s c (ih (expandTick alive s) c h2)

/-- C4 counterexample: in the expand variant a loop tick does NOT follow the
claimed activate→render→advance→reap order — on a one-character state the
tick's events are advance, reap, render: the frame is printed after the
advances of the same tick (effect_expand.py lines 113-116), and no activation
phase exists in the loop at all. -/
theorem expand_tick_not_phase_ordered :
    ¬ phaseOrdered (expandTickEvents aliveOne
        { active := [(charA, 0)], settled := [], renders := 1 }) := by
  intro h
  obtain ⟨hs, -⟩ := h
  revert hs
  decide

/-- C4 (amended): the wipe variant's loop ticks do follow the four-phase
activate→render→advance→reap order (with exactly one rendered frame per
tick); the expand variant instead activates every character once during
preparation, renders one frame before the loop, and each of its loop ticks is
advance→reap→render — so every advanced character in the expand run was
activated in the trace prefix laid down by preparation, and its first advance
is preceded by a rendered frame. -/
theorem tick_phase_order :
    (∀ (cfgDelay : ℕ) (alive : EffectCharacter → ℕ → Bool) (s : WipeState),
        phaseOrdered (wipeTickEvents cfgDelay alive s)) ∧
    (∀ (alive : EffectCharacter → ℕ → Bool) (s : ExpandState),
        ∃ advs rps : List EffectCharacter,
          expandTickEvents alive s
            = advs.map TickEvent.advance ++ rps.map TickEvent.reap
                ++ [TickEvent.render]) ∧
    (∀ (alive : EffectCharacter → ℕ → Bool) (chars : List EffectCharacter)
        (fuel : ℕ),
        ∃ rest : List TickEvent,
          expandRunEvents alive chars fuel
            = chars.map TickEvent.activate ++ [TickEvent.render] ++ rest ∧
          ∀ c : EffectCharacter, TickEvent.advance c ∈ rest → c ∈ chars) := by
  refine ⟨?_, ?_, ?_⟩
  · intro cfgDelay alive s
    simp only [wipeTickEvents]
    constructor
    · rw [phase_ranks_shape]
      exact sorted_phase_ranks _ _ _
    · exact phase_count_render _ _ _
  · intro alive s
    refine ⟨s.active.map Prod.fst,
      ((s.active.map fun ce => (ce.1, ce.2 + 1)).filter
        (fun ce => !alive ce.1 ce.2)).map Prod.fst, ?_⟩
    simp only [expandTickEvents, List.map_map]
    rfl
  · intro alive chars fuel
    refine ⟨expandLoopEvents alive fuel (expandInit chars), rfl, ?_⟩
    intro c hc
    have h := expandLoopEvents_advance alive fuel (expandInit chars) c hc
    simp only [expandInit, List.map_map] at h
    simpa using h

/-- Helper: the release step only moves characters between partitions. -/
theorem releasePhase_perm (cfgD : ℕ) (s : WipeState) :
    List.Perm (wipeChars (releasePhase cfgD s)) (wipeChars s) := by
  unfold releasePhase
  split
  · rcases hp : s.pending with - | ⟨g, rest⟩
    · simp only [hp]
      rw [List.perm_iff_count]
      intro a
      simp [wipeChars, hp]
    · simp only [hp]
      rw [List.perm_iff_count]
      intro a
      have hg : g.map (Prod.fst ∘ fun c => (c, (0 : ℕ))) = g := by
        have hid : (Prod.fst ∘ fun c : EffectCharacter => (c, (0 : ℕ))) = id := rfl
        rw [hid, List.map_id]
      simp only [wipeChars, hp, List.flatten_cons, List.count_append,
        List.map_append, List.map_map, hg]
      omega
  · exact List.Perm.refl _

/-- Helper: advancing and reaping only moves characters between partitions. -/
theorem advanceReap_perm (alive : EffectCharacter → ℕ → Bool) (s : WipeState) :
    List.Perm (wipeChars (advanceReapPhase alive s)) (wipeChars s) := by
  rw [List.perm_iff_count]
  intro a
  have hsplit := (List.Perm.map Prod.fst
    (List.filter_append_perm (fun ce => alive ce.1 ce.2)
      (s.active.map fun ce => (ce.1, ce.2 + 1)))).count_eq a
  simp only [List.map_append, List.count_append] at hsplit
  have hadv : ((s.active.map fun ce => (ce.1, ce.2 + 1)).map Prod.fst)
      = s.active.map Prod.fst := by
    simp [List.map_map, Function.comp]
  rw [hadv] at hsplit
  simp only [wipeChars, advanceReapPhase, List.count_append]
  omega

/-- Helper: one wipe tick permutes no characters in or out of the run — it
only moves them between the pending, active and settled partitions. -/
theorem wipeTick_perm (cfgD : ℕ) (alive : EffectCharacter → ℕ → Bool)
    (s : WipeState) :
    List.Perm (wipeChars (wipeTick cfgD alive s)) (wipeChars s) := by
  unfold wipeTick
  have h1 := advanceReap_perm alive (renderPhase (releasePhase cfgD s))
  have h2 : wipeChars (renderPhase (releasePhase cfgD s))
      = wipeChars (releasePhase cfgD s) := rfl
  refine List.Perm.trans h1 ?_
  rw [h2]
  exact releasePhase_perm cfgD s

/-- Helper: the wipe partition account is a permutation of all input
characters at every tick. -/
theorem wipeSteps_perm (D : ℕ) (alive : EffectCharacter → ℕ → Bool)
    (groups : List (List EffectCharacter)) :
    ∀ t : ℕ, List.Perm (wipeChars (wipeSteps D alive t (wipeInit D groups)))
      groups.flatten := by
  intro t
  induction t with
  | zero =>
    have h : wipeChars (wipeInit D groups) = groups.flatten := by
      simp [wipeChars, wipeInit]
    rw [wipeSteps, h]
  | succ t ih => exact (wipeTick_perm D alive _).trans ih

/-- Helper: one expand tick permutes no characters in or out of the run. -/
theorem expandTick_perm (alive : EffectCharacter → ℕ → Bool) (s : ExpandState) :
    List.Perm (expandChars (expandTick alive s)) (expandChars s) := by
  rw [List.perm_iff_count]
  intro a
  have hsplit := (List.Perm.map Prod.fst
    (List.filter_append_perm (fun ce => alive ce.1 ce.2)
      (s.active.map fun ce => (ce.1, ce.2 + 1)))).count_eq a
  simp only [List.map_append, List.count_append] at hsplit
  have hadv : ((s.active.map fun ce => (ce.1, ce.2 + 1)).map Prod.fst)
      = s.active.map Prod.fst := by
    simp [List.map_map, Function.comp]
  rw [hadv] at hsplit
  simp only [expandChars, expandTick, List.count_append]
  omega

/-- Helper: the expand partition account is a permutation of all input
characters at every tick. -/
theorem expandSteps_perm (alive : EffectCharacter → ℕ → Bool)
    (chars : List EffectCharacter) :
    ∀ t : ℕ, List.Perm (expandChars (expandSteps alive t (expandInit chars)))
      chars := by
  intro t
  induction t with
  | zero =>
    have h : expandChars (expandInit chars) = chars := by
      have hid : (Prod.fst ∘ fun c : EffectCharacter => (c, (0 : ℕ))) = id := rfl
      simp only [expandChars, expandInit, List.map_map, hid, List.map_id,
        List.append_nil]
    rw [expandSteps, h]
  | succ t ih => exact (expandTick_perm alive _).trans ih

/-- Helper: a wipe tick only ever appends to the settled list. -/
theorem wipeTick_settled_eq (cfgD : ℕ) (alive : EffectCharacter → ℕ → Bool)
    (s : WipeState) :
    ∃ l, (wipeTick cfgD alive s).settled = s.settled ++ l := by
  unfold wipeTick advanceReapPhase renderPhase releasePhase
  split
  · rcases hp : s.pending with - | ⟨g, rest⟩
    · simp only [hp]
      exact ⟨_, rfl⟩
    · simp only [hp]
      exact ⟨_, rfl⟩
  · exact ⟨_, rfl⟩

/-- Helper: an expand tick only ever appends to the settled list. -/
theorem expandTick_settled_eq (alive : EffectCharacter → ℕ → Bool)
    (s : ExpandState) :
    ∃ l, (expandTick alive s).settled = s.settled ++ l :=
  ⟨_, rfl⟩

/-- Helper: iterating from an intermediate state. -/
theorem wipeSteps_add (D : ℕ) (alive : EffectCharacter → ℕ → Bool) :
    ∀ (b t : ℕ) (s : WipeState),
      wipeSteps D alive (t + b) s = wipeSteps D alive b (wipeSteps D alive t s)
  | 0, t, s => rfl
  | b + 1, t, s => by
    show wipeTick D alive (wipeSteps D alive (t + b) s)
        = wipeTick D alive (wipeSteps D alive b (wipeSteps D alive t s))
    rw [wipeSteps_add D alive b t s]

/-- Helper: once settled, a character remains settled forever. -/
theorem wipeSteps_settled_mono (D : ℕ) (alive : EffectCharacter → ℕ → Bool) :
    ∀ (b : ℕ) (s : WipeState) (c : EffectCharacter),
      c ∈ s.settled → c ∈ (wipeSteps D alive b s).settled
  | 0, _, _, hc => hc
  | b + 1, s, c, hc => by
    show c ∈ (wipeTick D alive (wipeSteps D alive b s)).settled
    obtain ⟨l, hl⟩ := wipeTick_settled_eq D alive (wipeSteps D alive b s)
    rw [hl]
    exact List.mem_append_left _ (wipeSteps_settled_mono D alive b s c hc)

/-- Helper: a wipe tick never adds a character to the pending groups. -/
theorem wipeTick_pending_sub (cfgD : ℕ) (alive : EffectCharacter → ℕ → Bool)
    (s : WipeState) (c : EffectCharacter)
    (hc : c ∈ (wipeTick cfgD alive s).pending.flatten) :
    c ∈ s.pending.flatten := by
  rw [wipeTick_pending] at hc
  by_cases hd : s.delay = 0
  · rw [if_pos hd] at hc
    simp only [List.mem_flatten] at hc ⊢
    obtain ⟨l, hl, hcl⟩ := hc
    exact ⟨l, List.tail_subset _ hl, hcl⟩
  · rw [if_neg hd] at hc
    exact hc

/-- Helper: a character active after a wipe tick was active or pending
before it — the only way in is a release from pending. -/
theorem wipeTick_active_src (cfgD : ℕ) (alive : EffectCharacter → ℕ → Bool)
    (s : WipeState) (c : EffectCharacter)
    (hc : c ∈ (wipeTick cfgD alive s).active.map Prod.fst) :
    c ∈ s.active.map Prod.fst ∨ c ∈ s.pending.flatten := by
  unfold wipeTick advanceReapPhase renderPhase at hc
  simp only [List.mem_map, List.mem_filter] at hc
  obtain ⟨x, ⟨⟨a, ha, rfl⟩, -⟩, rfl⟩ := hc
  unfold releasePhase at ha
  by_cases hd : s.delay = 0
  · rw [if_pos hd] at ha
    rcases hp : s.pending with - | ⟨g, rest⟩
    · simp only [hp] at ha
      exact Or.inl (List.mem_map.mpr ⟨a, ha, rfl⟩)
    · simp only [hp] at ha
      rcases List.mem_append.mp ha with h | h
      · exact Or.inl (List.mem_map.mpr ⟨a, h, rfl⟩)
      · right
        simp only [List.mem_map] at h
        obtain ⟨c0, hc0, rfl⟩ := h
        exact List.mem_flatten.mpr ⟨g, List.mem_cons_self g rest, hc0⟩
  · rw [if_neg hd] at ha
    exact Or.inl (List.mem_map.mpr ⟨a, ha, rfl⟩)

/-- Helper: in a duplicate-free partition account, a settled character is in
neither the pending nor the active partition. -/
theorem nodup_partition_disjoint (s : WipeState) (h : (wipeChars s).Nodup)
    (c : EffectCharacter) (hc : c ∈ s.settled) :
    c ∉ s.pending.flatten ∧ c ∉ s.active.map Prod.fst := by
  unfold wipeChars at h
  rw [List.nodup_append] at h
  obtain ⟨-, -, hdisj⟩ := h
  have hn : c ∉ s.pending.flatten ++ s.active.map Prod.fst :=
    fun hmem => hdisj hmem hc
  simp only [List.mem_append] at hn
  exact ⟨fun h1 => hn (Or.inl h1), fun h2 => hn (Or.inr h2)⟩

/-- C3 (confirmed): for any duplicate-free character collection, at every
tick of either run loop the pending/active/settled partition accounts for
every character exactly once (the flattened account is a duplicate-free
permutation of the input); transitions go only pending→active (release) and
active→settled (reap); once settled a character stays settled and never
re-enters pending or active; and whenever the loop's DONE condition holds
(pending and active both empty) the settled partition is exactly the input
collection — no duplicates, no omissions. -/
theorem lifecycle_partition_invariant (D : ℕ)
    (alive : EffectCharacter → ℕ → Bool)
    (groups : List (List EffectCharacter)) (chars : List EffectCharacter)
    (hnodupW : groups.flatten.Nodup) (hnodupE : chars.Nodup) :
    (∀ t : ℕ,
      List.Perm (wipeChars (wipeSteps D alive t (wipeInit D groups)))
        groups.flatten ∧
      (wipeChars (wipeSteps D alive t (wipeInit D groups))).Nodup) ∧
    (∀ s : WipeState,
      (∀ c ∈ s.settled, c ∈ (wipeTick D alive s).settled) ∧
      (∀ c : EffectCharacter, c ∈ (wipeTick D alive s).active.map Prod.fst →
        c ∈ s.active.map Prod.fst ∨ c ∈ s.pending.flatten) ∧
      (∀ c : EffectCharacter, c ∈ (wipeTick D alive s).pending.flatten →
        c ∈ s.pending.flatten)) ∧
    (∀ (t b : ℕ) (c : EffectCharacter),
      c ∈ (wipeSteps D alive t (wipeInit D groups)).settled →
      c ∈ (wipeSteps D alive (t + b) (wipeInit D groups)).settled ∧
      c ∉ (wipeSteps D alive (t + b) (wipeInit D groups)).pending.flatten ∧
      c ∉ (wipeSteps D alive (t + b) (wipeInit D groups)).active.map Prod.fst) ∧
    (∀ t : ℕ, (wipeSteps D alive t (wipeInit D groups)).pending = [] →
      (wipeSteps D alive t (wipeInit D groups)).active = [] →
      List.Perm (wipeSteps D alive t (wipeInit D groups)).settled
        groups.flatten) ∧
    (∀ t : ℕ,
      List.Perm (expandChars (expandSteps alive t (expandInit chars))) chars ∧
      (expandChars (expandSteps alive t (expandInit chars))).Nodup) ∧
    (∀ s : ExpandState, ∀ c ∈ s.settled, c ∈ (expandTick alive s).settled) ∧
    (∀ t : ℕ, (expandSteps alive t (expandInit chars)).active = [] →
      List.Perm (expandSteps alive t (expandInit chars)).settled chars) := by
  have hwp := wipeSteps_perm D alive groups
  have hwn : ∀ t : ℕ,
      (wipeChars (wipeSteps D alive t (wipeInit D groups))).Nodup :=
    fun t => ((hwp t).nodup_iff).mpr hnodupW
  have hep := expandSteps_perm alive chars
  refine ⟨fun t => ⟨hwp t, hwn t⟩, ?_, ?_, ?_,
    fun t => ⟨hep t, ((hep t).nodup_iff).mpr hnodupE⟩, ?_, ?_⟩
  · intro s
    refine ⟨?_, wipeTick_active_src D alive s, wipeTick_pending_sub D alive s⟩
    intro c hc
    obtain ⟨l, hl⟩ := wipeTick_settled_eq D alive s
    rw [hl]
    exact List.mem_append_left _ hc
  · intro t b c hc
    have hmem : c ∈ (wipeSteps D alive (t + b) (wipeInit D groups)).settled := by
      rw [wipeSteps_add D alive b t]
      exact wipeSteps_settled_mono D alive b _ c hc
    have hdisj := nodup_partition_disjoint _ (hwn (t + b)) c hmem
    exact ⟨hmem, hdisj.1, hdisj.2⟩
  · intro t hpend hact
    have h := hwp t
    unfold wipeChars at h
    rw [hpend, hact] at h
    simpa using h
  · intro s c hc
    obtain ⟨l, hl⟩ := expandTick_settled_eq alive s
    rw [hl]
    exact List.mem_append_left _ hc
  · intro t hact
    have h := hep t
    unfold expandChars at h
    rw [hact] at h
    simpa using h

/-- C3 witness: stagger delay 1, groups [[charA]], [[charB]], liveness one
tick — the run is DONE by tick 5 and the settled partition is exactly the
input collection. -/
theorem lifecycle_partition_invariant_witness :
    List.Perm (wipeSteps 1 aliveOne 5 (wipeInit 1 [[charA], [charB]])).settled
      ([[charA], [charB]] : List (List EffectCharacter)).flatten :=
  (lifecycle_partition_invariant 1 aliveOne [[charA], [charB]] [charA]
    (by decide) (by decide)).2.2.2.1 5 (by decide) (by decide)
